import Mathlib

/-!
Verification development for the PageRank batch job in `pagerank_bucket.py`.

The development shallowly embeds the algorithmic core of the repository:

* link extraction (`HREF_RE` / `parse_outgoing_ids`),
* the per-page fetch-and-parse loop of `download_pages_build_graph`
  (the object-store fetch is abstracted as an oracle `Nat → Option (List Char)`,
  `none` standing for any fetch failure caught by the `try/except`),
* the iterative solver `pagerank_iterative`.

Machine floats are modelled by exact rationals (`ℚ`); Python's unbounded
integers by `Nat`/`Int`.  Wall-clock readings (`time.time()`) cannot be
modelled functionally, so the elapsed-seconds component of the result triple
is a parameter `elapsed` standing for the measured duration; the `n <= 0`
branch of the source returns the literal `0.0`, which the embedding returns
literally as well.
-/

/-! ### Link extraction: `HREF_RE = re.compile(r'<a\s+HREF="(\d+)\.html"', re.IGNORECASE)` -/

/-- Python `\s` on ASCII text: space, tab, newline, carriage return,
vertical tab, form feed. -/
def isSpaceCh (c : Char) : Bool :=
  c = ' ' || c = '\t' || c = '\n' || c = '\r' || c = Char.ofNat 11 || c = Char.ofNat 12

/-- Value of a decimal digit string, as computed by Python `int(x)` on the
captured group (which `\d+` guarantees to be nonempty digits). -/
def digitsVal (ds : List Char) : Nat :=
  ds.foldl (fun a c => 10 * a + (c.toNat - '0'.toNat)) 0

/-- Attempt to match the regex `<a\s+HREF="(\d+)\.html"` (with `re.IGNORECASE`,
so every letter of the pattern — including the `html` of the extension —
matches either case) at the head of the character list.  Returns the value of
the captured digit group together with the total length of the match.
`\s+` and `\d+` are greedy; since the character following each of them in the
pattern (`H` resp. `.`) can match neither `\s` nor `\d`, the greedy maximal
run is the unique possible match and no backtracking arises. -/
def matchAt (l : List Char) : Option (Nat × Nat) :=
  match l with
  | c0 :: c1 :: r =>
    if c0 = '<' && (c1 = 'a' || c1 = 'A') then
      let ws := r.takeWhile isSpaceCh
      if ws.length = 0 then none else
      match r.dropWhile isSpaceCh with
      | h1 :: h2 :: h3 :: h4 :: e1 :: q1 :: t =>
        if (h1 = 'h' || h1 = 'H') && (h2 = 'r' || h2 = 'R') &&
           (h3 = 'e' || h3 = 'E') && (h4 = 'f' || h4 = 'F') &&
           e1 = '=' && q1 = '"' then
          let ds := t.takeWhile Char.isDigit
          if ds.length = 0 then none else
          match t.dropWhile Char.isDigit with
          | p1 :: m1 :: m2 :: m3 :: m4 :: q2 :: _ =>
            if p1 = '.' && (m1 = 'h' || m1 = 'H') && (m2 = 't' || m2 = 'T') &&
               (m3 = 'm' || m3 = 'M') && (m4 = 'l' || m4 = 'L') && q2 = '"' then
              some (digitsVal ds, 14 + ws.length + ds.length)
            else none
          | _ => none
        else none
      | _ => none
    else none
  | _ => none

/-- `re.findall` scanning: left to right, at each position try to match; on a
match emit the captured value and resume right after the match, otherwise
advance one character.  Every match of `HREF_RE` has positive length, so the
number of steps is bounded by the length of the input; `fuel` makes the
recursion structural on that bound. -/
def scanGo : Nat → List Char → List Nat
  | 0, _ => []
  | _ + 1, [] => []
  | fuel + 1, c :: r =>
    match matchAt (c :: r) with
    | some (v, len) => v :: scanGo fuel (r.drop (len - 1))
    | none => scanGo fuel r

/-- `parse_outgoing_ids(html) = [int(x) for x in HREF_RE.findall(html)]`;
the `int` conversion is fused into the scan (`digitsVal` at match time). -/
def parse_outgoing_ids (html : List Char) : List Nat :=
  scanGo html.length html

/-- `outs = [d for d in outs if 0 <= d < n_pages]` (line 92 of the source). -/
def filterOuts (outs : List Nat) (n : Nat) : List Nat :=
  outs.filter (fun v => decide (0 ≤ v ∧ v < n))

/-- Modelled from the claim's words (for comparison with `matchAt`): a match
of an anchor tag of the literal form `<a HREF="<digits>.html">` where only
the tag name `a` and the attribute name `HREF` are case-insensitive — the
`.html` extension must be lowercase and the closing `>` must be present. -/
def specMatchAt (l : List Char) : Option (Nat × Nat) :=
  match l with
  | c0 :: c1 :: r =>
    if c0 = '<' && (c1 = 'a' || c1 = 'A') then
      let ws := r.takeWhile isSpaceCh
      if ws.length = 0 then none else
      match r.dropWhile isSpaceCh with
      | h1 :: h2 :: h3 :: h4 :: e1 :: q1 :: t =>
        if (h1 = 'h' || h1 = 'H') && (h2 = 'r' || h2 = 'R') &&
           (h3 = 'e' || h3 = 'E') && (h4 = 'f' || h4 = 'F') &&
           e1 = '=' && q1 = '"' then
          let ds := t.takeWhile Char.isDigit
          if ds.length = 0 then none else
          match t.dropWhile Char.isDigit with
          | p1 :: m1 :: m2 :: m3 :: m4 :: q2 :: g1 :: _ =>
            if p1 = '.' && m1 = 'h' && m2 = 't' && m3 = 'm' && m4 = 'l' &&
               q2 = '"' && g1 = '>' then
              some (digitsVal ds, 15 + ws.length + ds.length)
            else none
          | _ => none
        else none
      | _ => none
    else none
  | _ => none

/-- Modelled from the claim's words: scanner companion of `specMatchAt`. -/
def specScanGo : Nat → List Char → List Nat
  | 0, _ => []
  | _ + 1, [] => []
  | fuel + 1, c :: r =>
    match specMatchAt (c :: r) with
    | some (v, len) => v :: specScanGo fuel (r.drop (len - 1))
    | none => specScanGo fuel r

/-- Modelled from the claim's words: the destination ids of the anchor tags of
the literal form `<a HREF="<digits>.html">` occurring in the page, in order. -/
def specLiteralFormIds (html : List Char) : List Nat :=
  specScanGo html.length html

/-- An anchor tag of the literal form `<a HREF="<digits>.html">` claimed by the
specification, built from a digit string `s`. -/
def linkOf (s : List Char) : List Char :=
  ['<', 'a', ' ', 'H', 'R', 'E', 'F', '=', '"'] ++ s ++ ['.', 'h', 't', 'm', 'l', '"', '>']

/-- Concatenation of a list of lists. -/
def catLists {α : Type} : List (List α) → List α
  | [] => []
  | x :: xs => x ++ catLists xs

/-! ### GraphBuilder: the fetch-and-parse loop of `download_pages_build_graph`
(lines 83-95).  The object-store fetch is abstracted as an oracle
`fetch : Nat → Option (List Char)`; `fetch i = none` models any exception
raised by `blob.download_as_text()`, which the source catches and replaces by
the empty string. -/

/-- One loop body: `html = fetch or ""` on failure, parse, filter to range.
The adjacency dict has keys exactly `range n`; it is modelled as a total
function that is `[]` outside that range. -/
def outlinksAt (fetch : Nat → Option (List Char)) (n i : Nat) : List Nat :=
  if i < n then filterOuts (parse_outgoing_ids ((fetch i).getD [])) n else []

/-- `for d in outs: indeg[d] += 1`, the inner bookkeeping on the
`defaultdict(int)`. -/
def bumpCounts (m : Nat → Nat) (outs : List Nat) : Nat → Nat :=
  outs.foldl (fun m d => fun x => if x = d then m x + 1 else m x) m

/-- The in-degree map built by the fetch loop: all occurrences across the
adjacency lists of pages `0, …, n-1` are counted. -/
def indegAt (fetch : Nat → Option (List Char)) (n : Nat) : Nat → Nat :=
  (List.range n).foldl (fun m i => bumpCounts m (outlinksAt fetch n i)) (fun _ => 0)

/-! ### PageRankEngine: `pagerank_iterative` (lines 97-149). -/

/-- `incoming[dst].append(src)`.  `List.set` out of range is a no-op; the
Python list write would raise `IndexError` there, which never happens for the
adjacency structures produced by GraphBuilder (destinations are range-filtered). -/
def appendAt (inc : List (List Nat)) (dst src : Nat) : List (List Nat) :=
  inc.set dst (inc.getD dst [] ++ [src])

/-- The reverse-adjacency construction:
`for src in range(n): for dst in outlinks.get(src, []): incoming[dst].append(src)`.
The Python dict `outlinks` with its `.get(src, [])` default is modelled as the
total function `outlinks`. -/
def buildIncoming (n : Nat) (outlinks : Nat → List Nat) : List (List Nat) :=
  (List.range n).foldl
    (fun inc src => (outlinks src).foldl (fun inc2 dst => appendAt inc2 dst src) inc)
    (List.replicate n [])

/-- `outdeg[src] = len(outlinks.get(src, []))` for `src in range(n)`. -/
def outdegList (n : Nat) (outlinks : Nat → List Nat) : List Nat :=
  (List.range n).map (fun src => (outlinks src).length)

/-- `dangling_mass = sum(pr[i] for i in range(n) if outdeg[i] == 0)`
(line 126), computed from the current rank vector. -/
def danglingMass (n : Nat) (outdeg : List Nat) (pr : List ℚ) : ℚ :=
  (((List.range n).filter (fun i => outdeg.getD i 0 = 0)).map (fun i => pr.getD i 0)).sum

/-- One full Jacobi iteration (lines 126-137): every `new_pr[a]` is computed
from the same snapshot `pr`, with the dangling mass computed once beforehand.
The `if c > 0` guard of line 133 is the conditional inside the mapped term. -/
def newRank (n : Nat) (incoming : List (List Nat)) (outdeg : List Nat)
    (d : ℚ) (pr : List ℚ) : List ℚ :=
  let dang := danglingMass n outdeg pr
  let base := (1 - d) / (n : ℚ)
  (List.range n).map (fun a =>
    base + d * ((((incoming.getD a []).map (fun t =>
        if 0 < outdeg.getD t 0 then pr.getD t 0 / (outdeg.getD t 0 : ℚ) else 0)).sum)
      + dang / (n : ℚ)))

/-- `delta = sum(abs(new_pr[i] - pr[i]) for i in range(n))` (line 139). -/
def deltaL1 (n : Nat) (np pr : List ℚ) : ℚ :=
  ((List.range n).map (fun i => |np.getD i 0 - pr.getD i 0|)).sum

/-- `denom = prev_sum if prev_sum != 0 else 1.0` (line 140). -/
def adjDenom (s : ℚ) : ℚ :=
  if s ≠ 0 then s else 1

/-- The iteration loop `for it in range(1, max_iter + 1)` (lines 124-146):
`it` is the 1-based iteration counter, `pr` the current vector, `prevSum` the
sum of the vector before this iteration's update.  The loop runs at most
`maxIterN` iterations; `fuel` (initially `maxIterN`) makes the recursion
structural, and exhausting it is exactly the loop running to completion, upon
which line 149 returns the last computed vector together with `max_iter`. -/
def prLoopCore (step : List ℚ → List ℚ) (delta : List ℚ → List ℚ → ℚ)
    (tol : ℚ) (maxIterN : Nat) : Nat → Nat → List ℚ → ℚ → List ℚ × Nat
  | 0, _, pr, _ => (pr, maxIterN)
  | fuel + 1, it, pr, prevSum =>
    let np := step pr
    if delta np pr / adjDenom prevSum ≤ tol then (np, it)
    else prLoopCore step delta tol maxIterN fuel (it + 1) np np.sum

/-- `pagerank_iterative(n, outlinks, d, tol, max_iter)` (lines 97-149).
`elapsed` stands for the wall-clock duration measured by the two
`time.time()` calls; the `n <= 0` branch returns the literal `0.0`.  When
`max_iter <= 0` the Python `for` loop body never runs and line 149 returns the
initial vector with the given (non-positive) `max_iter`. -/
def pagerank_iterative (n : Int) (outlinks : Nat → List Nat)
    (d tol : ℚ) (max_iter : Int) (elapsed : ℚ) : List ℚ × Int × ℚ :=
  if n ≤ 0 then ([], 0, 0)
  else
    let N := n.toNat
    let incoming := buildIncoming N outlinks
    let outdeg := outdegList N outlinks
    let pr0 := List.replicate N ((1 : ℚ) / (N : ℚ))
    if max_iter ≤ 0 then (pr0, max_iter, elapsed)
    else
      let r := prLoopCore (fun pr => newRank N incoming outdeg d pr) (deltaL1 N)
        tol max_iter.toNat max_iter.toNat 1 pr0 pr0.sum
      (r.1, (r.2 : Int), elapsed)

/-- The sequence of rank vectors: `iterVec step pr0 j` is the vector after `j`
full iterations from the initial vector `pr0`. -/
def iterVec (step : List ℚ → List ℚ) (pr0 : List ℚ) (j : Nat) : List ℚ :=
  step^[j] pr0

/-- The convergence test of lines 139-141 evaluated after iteration `j ≥ 1`:
relative L1 change of iteration `j` against the total mass of the vector
before it. -/
def convAt (step : List ℚ → List ℚ) (delta : List ℚ → List ℚ → ℚ)
    (tol : ℚ) (pr0 : List ℚ) (j : Nat) : Prop :=
  delta (iterVec step pr0 j) (iterVec step pr0 (j - 1)) /
    adjDenom ((iterVec step pr0 (j - 1)).sum) ≤ tol

/-! ### Helper lemmas -/

lemma getD_map_range {α : Type} (f : Nat → α) (dflt : α) {n a : Nat} (ha : a < n) :
    ((List.range n).map f).getD a dflt = f a := by
  rw [List.getD_eq_getElem ((List.range n).map f) dflt (by simpa using ha)]
  simp

lemma listSum_range (f : Nat → ℚ) : ∀ n, ((List.range n).map f).sum = ∑ i in Finset.range n, f i := by
  intro n
  induction n with
  | zero => simp
  | succ m ih => simp [List.range_succ, Finset.sum_range_succ, ih]

lemma takeWhile_all_append (p : Char → Bool) :
    ∀ (s : List Char) (c : Char) (l : List Char), (∀ x ∈ s, p x = true) → p c = false →
      (s ++ c :: l).takeWhile p = s := by
  intro s
  induction s with
  | nil => intro c l _ hc; simp [List.takeWhile_cons, hc]
  | cons a s ih =>
    intro c l hs hc
    have ha : p a = true := hs a (by simp)
    simp only [List.cons_append, List.takeWhile_cons, ha, if_true]
    rw [ih c l (fun x hx => hs x (by simp [hx])) hc]

lemma dropWhile_all_append (p : Char → Bool) :
    ∀ (s : List Char) (c : Char) (l : List Char), (∀ x ∈ s, p x = true) → p c = false →
      (s ++ c :: l).dropWhile p = c :: l := by
  intro s
  induction s with
  | nil => intro c l _ hc; simp [List.dropWhile_cons, hc]
  | cons a s ih =>
    intro c l hs hc
    have ha : p a = true := hs a (by simp)
    simp only [List.cons_append, List.dropWhile_cons, ha, if_true]
    exact ih c l (fun x hx => hs x (by simp [hx])) hc

lemma drop_len_add {α : Type} : ∀ (s l : List α) (n : Nat), List.drop (s.length + n) (s ++ l) = List.drop n l := by
  intro s
  induction s with
  | nil => intro l n; simp
  | cons a s ih => intro l n; simp only [List.cons_append, List.length_cons, Nat.succ_add, List.drop_succ_cons]; exact ih l n

lemma scanGo_nil : ∀ f, scanGo f [] = [] := by
  intro f; cases f <;> rfl

lemma scanGo_fuel : ∀ (f1 f2 : Nat) (l : List Char), l.length ≤ f1 → l.length ≤ f2 →
    scanGo f1 l = scanGo f2 l := by
  intro f1
  induction f1 with
  | zero =>
    intro f2 l h1 _
    have : l = [] := List.eq_nil_of_length_eq_zero (Nat.le_zero.mp h1)
    subst this; rw [scanGo_nil, scanGo_nil]
  | succ f ih =>
    intro f2 l h1 h2
    match l with
    | [] => rw [scanGo_nil, scanGo_nil]
    | c :: r =>
      match f2 with
      | 0 => simp at h2
      | g + 1 =>
        simp only [scanGo]
        cases h : matchAt (c :: r) with
        | none =>
          exact ih g r (by simp at h1; omega) (by simp at h2; omega)
        | some vl =>
          have hd : (r.drop (vl.2 - 1)).length ≤ r.length := by
            simp [List.length_drop]
          simp only []
          rw [ih g (r.drop (vl.2 - 1)) (by simp at h1 ⊢; omega) (by simp at h2 ⊢; omega)]

lemma matchAt_gt (rest : List Char) : matchAt ('>' :: rest) = none := by
  cases rest with
  | nil => rfl
  | cons c r => simp [matchAt]

lemma matchAt_link (s rest : List Char) (hne : s ≠ []) (hdig : ∀ c ∈ s, c.isDigit = true) :
    matchAt (linkOf s ++ rest) = some (digitsVal s, 15 + s.length) := by
  have hsp : isSpaceCh 'H' = false := by decide
  have hdot : Char.isDigit '.' = false := by decide
  have hlen : s.length ≠ 0 := fun h => hne (List.eq_nil_of_length_eq_zero h)
  simp only [linkOf, List.cons_append, List.append_assoc, List.nil_append]
  simp only [matchAt]
  rw [show (' ' :: 'H' :: 'R' :: 'E' :: 'F' :: '=' :: '"' ::
        (s ++ '.' :: 'h' :: 't' :: 'm' :: 'l' :: '"' :: '>' :: rest)) =
      ([' '] ++ 'H' :: ('R' :: 'E' :: 'F' :: '=' :: '"' ::
        (s ++ '.' :: 'h' :: 't' :: 'm' :: 'l' :: '"' :: '>' :: rest))) from rfl]
  rw [takeWhile_all_append isSpaceCh [' '] 'H' _ (by decide) hsp,
      dropWhile_all_append isSpaceCh [' '] 'H' _ (by decide) hsp]
  simp only [List.length_singleton, one_ne_zero, if_false]
  rw [takeWhile_all_append Char.isDigit s '.' _ hdig hdot,
      dropWhile_all_append Char.isDigit s '.' _ hdig hdot]
  simp [hlen]

lemma scanGo_link (s rest : List Char) (hne : s ≠ []) (hdig : ∀ c ∈ s, c.isDigit = true) :
    scanGo (linkOf s ++ rest).length (linkOf s ++ rest)
      = digitsVal s :: scanGo rest.length rest := by
  have hlenL : (linkOf s ++ rest).length = 16 + s.length + rest.length := by
    simp [linkOf]; omega
  have hcons : linkOf s ++ rest =
      '<' :: ('a' :: ' ' :: 'H' :: 'R' :: 'E' :: 'F' :: '=' :: '"' ::
        (s ++ '.' :: 'h' :: 't' :: 'm' :: 'l' :: '"' :: '>' :: rest)) := by
    simp [linkOf]
  rw [hlenL, hcons, show 16 + s.length + rest.length
      = (15 + s.length + rest.length) + 1 from by omega]
  simp only [scanGo]
  rw [show '<' :: ('a' :: ' ' :: 'H' :: 'R' :: 'E' :: 'F' :: '=' :: '"' ::
        (s ++ '.' :: 'h' :: 't' :: 'm' :: 'l' :: '"' :: '>' :: rest))
      = linkOf s ++ rest from hcons.symm]
  rw [matchAt_link s rest hne hdig]
  simp only []
  have hdrop : (('a' :: ' ' :: 'H' :: 'R' :: 'E' :: 'F' :: '=' :: '"' ::
      (s ++ '.' :: 'h' :: 't' :: 'm' :: 'l' :: '"' :: '>' :: rest))).drop (15 + s.length - 1)
      = '>' :: rest := by
    rw [show ('a' :: ' ' :: 'H' :: 'R' :: 'E' :: 'F' :: '=' :: '"' ::
        (s ++ '.' :: 'h' :: 't' :: 'm' :: 'l' :: '"' :: '>' :: rest))
      = (['a', ' ', 'H', 'R', 'E', 'F', '=', '"'] ++
        (s ++ ('.' :: 'h' :: 't' :: 'm' :: 'l' :: '"' :: '>' :: rest))) from rfl]
    rw [show 15 + s.length - 1 = (['a', ' ', 'H', 'R', 'E', 'F', '=', '"'] : List Char).length
        + (s.length + 6) from by simp; omega]
    rw [drop_len_add]
    rw [show s.length + 6 = s.length + 6 from rfl, drop_len_add s _ 6]
    rfl
  rw [hdrop]
  rw [scanGo_fuel (15 + s.length + rest.length) (rest.length + 1) ('>' :: rest)
    (by simp; omega) (by simp)]
  simp only [scanGo, matchAt_gt]

lemma parse_cat_links : ∀ (ss : List (List Char)),
    (∀ s ∈ ss, s ≠ [] ∧ ∀ c ∈ s, c.isDigit = true) →
    parse_outgoing_ids (catLists (ss.map linkOf)) = ss.map digitsVal := by
  intro ss
  induction ss with
  | nil => intro _; rfl
  | cons s ss ih =>
    intro h
    have hs := h s (by simp)
    calc parse_outgoing_ids (catLists ((s :: ss).map linkOf))
        = digitsVal s :: parse_outgoing_ids (catLists (ss.map linkOf)) :=
          scanGo_link s (catLists (ss.map linkOf)) hs.1 hs.2
      _ = (s :: ss).map digitsVal := by
          rw [ih (fun t ht => h t (by simp [ht]))]; rfl

/-- C7 counterexample: the claim states that link extraction returns exactly
the ids of anchor tags of the literal form `<a HREF="<digits>.html">` with
only the tag/attribute name matched case-insensitively.  On the page content
`<a HREF="3.HTML"` — which contains no tag of that literal form, since the
`.html` extension is uppercase and the closing `>` is missing — the code's
extraction (`HREF_RE` applies `re.IGNORECASE` to the whole pattern and never
requires a `>`) nonetheless returns `[3]`, while the extraction prescribed by
the claim's words (`specLiteralFormIds`) returns `[]`. -/
theorem c7_counterexample :
    parse_outgoing_ids (String.toList "<a HREF=\"3.HTML\"") = [3] ∧
    specLiteralFormIds (String.toList "<a HREF=\"3.HTML\"") = [] := by
  exact ⟨by decide, by decide⟩

/-- C7 amended: link extraction scans the page left to right for
non-overlapping occurrences of the pattern `<a` + whitespace + `HREF="` +
digits + `.html"`, with every letter (including the `.html` extension)
matched case-insensitively and no closing `>` required, returning the digit
values in order of appearance with duplicates preserved; in particular, on a
page consisting of anchor tags of the claimed literal form
`<a HREF="<digits>.html">` it returns exactly their ids in order, duplicates
preserved.  The resulting destinations are then filtered to `0 <= d < N`,
out-of-range ids being silently dropped (the filter never raises). -/
theorem c7_amended_extraction (ss : List (List Char)) (n : Nat)
    (h : ∀ s ∈ ss, s ≠ [] ∧ ∀ c ∈ s, c.isDigit = true) :
    parse_outgoing_ids (catLists (ss.map linkOf)) = ss.map digitsVal ∧
    filterOuts (parse_outgoing_ids (catLists (ss.map linkOf))) n
      = (ss.map digitsVal).filter (fun v => decide (v < n)) := by
  have h1 := parse_cat_links ss h
  refine ⟨h1, ?_⟩
  rw [h1, filterOuts]
  apply List.filter_congr
  intro v _
  simp

/-- Witness for `c7_amended_extraction` at the concrete page
`<a HREF="4.html"><a HREF="12.html"><a HREF="4.html">` with `N = 5`. -/
theorem c7_amended_witness :
    (∀ s ∈ [['4'], ['1', '2'], ['4']], s ≠ [] ∧ ∀ c ∈ s, c.isDigit = true) ∧
    (parse_outgoing_ids (catLists ([['4'], ['1', '2'], ['4']].map linkOf))
        = [['4'], ['1', '2'], ['4']].map digitsVal ∧
      filterOuts (parse_outgoing_ids (catLists ([['4'], ['1', '2'], ['4']].map linkOf))) 5
        = ([['4'], ['1', '2'], ['4']].map digitsVal).filter (fun v => decide (v < 5))) :=
  ⟨by decide, c7_amended_extraction [['4'], ['1', '2'], ['4']] 5 (by decide)⟩

lemma catLists_eq_join {α : Type} : ∀ (ls : List (List α)), catLists ls = ls.flatten := by
  intro ls
  induction ls with
  | nil => rfl
  | cons x xs ih => simp [catLists, ih]

lemma appendAt_length (inc : List (List Nat)) (dst src : Nat) :
    (appendAt inc dst src).length = inc.length := by
  simp [appendAt]

lemma appendAt_getD (inc : List (List Nat)) (dst src a : Nat) (ha : a < inc.length) :
    (appendAt inc dst src).getD a []
      = if dst = a then inc.getD a [] ++ [src] else inc.getD a [] := by
  rw [appendAt, List.getD_eq_getElem _ _ (by simpa using ha),
      List.getD_eq_getElem _ _ ha, List.getElem_set]
  by_cases h : dst = a
  · subst h
    simp [List.getD, List.getElem?_eq_getElem ha]
  · simp [h]

lemma foldl_appendAt_length (src : Nat) : ∀ (outs : List Nat) (inc : List (List Nat)),
    (outs.foldl (fun inc2 dst => appendAt inc2 dst src) inc).length = inc.length := by
  intro outs
  induction outs with
  | nil => intro inc; rfl
  | cons dst outs ih => intro inc; rw [List.foldl_cons, ih, appendAt_length]

lemma foldl_appendAt_getD (src : Nat) : ∀ (outs : List Nat) (inc : List (List Nat)) (a : Nat),
    a < inc.length →
    (outs.foldl (fun inc2 dst => appendAt inc2 dst src) inc).getD a []
      = inc.getD a [] ++ List.replicate (outs.count a) src := by
  intro outs
  induction outs with
  | nil => intro inc a _; simp
  | cons dst outs ih =>
    intro inc a ha
    rw [List.foldl_cons, ih (appendAt inc dst src) a (by rw [appendAt_length]; exact ha),
        appendAt_getD inc dst src a ha]
    by_cases h : dst = a
    · subst h
      simp [List.count_cons, List.replicate_succ]
    · simp [List.count_cons, h, Ne.symm h]

lemma buildIncoming_length (n : Nat) (outlinks : Nat → List Nat) :
    (buildIncoming n outlinks).length = n := by
  rw [buildIncoming]
  have : ∀ (L : List Nat) (inc : List (List Nat)),
      (L.foldl (fun inc src => (outlinks src).foldl
        (fun inc2 dst => appendAt inc2 dst src) inc) inc).length = inc.length := by
    intro L
    induction L with
    | nil => intro inc; rfl
    | cons s L ih => intro inc; rw [List.foldl_cons, ih, foldl_appendAt_length]
  rw [this, List.length_replicate]

lemma buildIncoming_getD (n : Nat) (outlinks : Nat → List Nat) (a : Nat) (ha : a < n) :
    (buildIncoming n outlinks).getD a []
      = catLists ((List.range n).map (fun src => List.replicate ((outlinks src).count a) src)) := by
  rw [buildIncoming]
  have main : ∀ (L : List Nat) (inc : List (List Nat)), a < inc.length →
      (L.foldl (fun inc src => (outlinks src).foldl
        (fun inc2 dst => appendAt inc2 dst src) inc) inc).getD a []
      = inc.getD a [] ++ catLists (L.map (fun src => List.replicate ((outlinks src).count a) src)) := by
    intro L
    induction L with
    | nil => intro inc _; simp [catLists]
    | cons s L ih =>
      intro inc hinc
      rw [List.foldl_cons, ih _ (by rw [foldl_appendAt_length]; exact hinc),
          foldl_appendAt_getD s (outlinks s) inc a hinc]
      simp [catLists]
  rw [main (List.range n) (List.replicate n []) (by simpa using ha)]
  rw [List.getD_eq_getElem _ _ (by simpa using ha)]
  simp

lemma mem_buildIncoming (n : Nat) (outlinks : Nat → List Nat) (a t : Nat) (ha : a < n)
    (ht : t ∈ (buildIncoming n outlinks).getD a []) : t < n ∧ a ∈ outlinks t := by
  rw [buildIncoming_getD n outlinks a ha, catLists_eq_join] at ht
  rw [List.mem_flatten] at ht
  obtain ⟨l, hl, htl⟩ := ht
  rw [List.mem_map] at hl
  obtain ⟨src, hsrc, rfl⟩ := hl
  have hts : t = src := List.eq_of_mem_replicate htl
  subst hts
  refine ⟨List.mem_range.mp hsrc, ?_⟩
  by_contra hnotmem
  have hc : (outlinks t).count a = 0 := List.count_eq_zero.mpr hnotmem
  rw [hc] at htl
  simp at htl

/-- A small concrete adjacency map used by the witnesses:
page 0 links to page 1, every other page has no outgoing links. -/
def exOutlinks : Nat → List Nat := fun i => if i = 0 then [1] else []

/-- C10: every source `t` appearing in the reverse-adjacency list
`incoming[a]` was appended there while recording one of its own outgoing
links, hence `t < n` and `outdeg[t] = len(outlinks[t]) >= 1`; the
contribution `pr[t]/outdeg[t]` therefore never divides by zero and the
`c > 0` guard's skip branch is unreachable (the embedded iteration is total
by construction). -/
theorem c10_incoming_sources_have_outdegree (n : Nat) (outlinks : Nat → List Nat)
    (a t : Nat) (ha : a < n) (ht : t ∈ (buildIncoming n outlinks).getD a []) :
    t < n ∧ (outdegList n outlinks).getD t 0 = (outlinks t).length ∧
      1 ≤ (outdegList n outlinks).getD t 0 := by
  obtain ⟨htn, hmem⟩ := mem_buildIncoming n outlinks a t ha ht
  have hdeg : (outdegList n outlinks).getD t 0 = (outlinks t).length := by
    rw [outdegList]; exact getD_map_range _ 0 htn
  refine ⟨htn, hdeg, ?_⟩
  rw [hdeg]
  exact List.length_pos.mpr (List.ne_nil_of_mem hmem)

/-- Witness for `c10_incoming_sources_have_outdegree` on the concrete graph
`{0: [1]}` with `n = 2`, `a = 1`, `t = 0`. -/
theorem c10_witness :
    (1 < 2 ∧ 0 ∈ (buildIncoming 2 exOutlinks).getD 1 []) ∧
    (0 < 2 ∧ (outdegList 2 exOutlinks).getD 0 0 = (exOutlinks 0).length ∧
      1 ≤ (outdegList 2 exOutlinks).getD 0 0) :=
  ⟨⟨by decide, by decide⟩,
    c10_incoming_sources_have_outdegree 2 exOutlinks 1 0 (by decide) (by decide)⟩

/-- C1: for every page `a < n`, one iteration of `pagerank_iterative`
computes `rank'(a) = (1-d)/n + d*(sum over s in incoming[a] of
rank(s)/outdeg(s) + danglingMass/n)`, where `danglingMass` is computed once
per iteration from the current rank vector (`newRank` reads only the
snapshot `pr`; Jacobi-style by construction) and the `c > 0` guard of the
source never fires, so the guarded sum equals the claimed unguarded one with
`OutDegree(s) = len(outlinks[s])`. -/
theorem c1_iteration_formula (n : Nat) (outlinks : Nat → List Nat) (d : ℚ)
    (pr : List ℚ) (a : Nat) (ha : a < n) :
    (newRank n (buildIncoming n outlinks) (outdegList n outlinks) d pr).getD a 0
      = (1 - d) / (n : ℚ)
        + d * ((((buildIncoming n outlinks).getD a []).map
              (fun s => pr.getD s 0 / ((outlinks s).length : ℚ))).sum
            + danglingMass n (outdegList n outlinks) pr / (n : ℚ)) := by
  simp only [newRank]
  rw [getD_map_range _ 0 ha]
  have hcongr : ∀ t ∈ (buildIncoming n outlinks).getD a [],
      (if 0 < (outdegList n outlinks).getD t 0 then
          pr.getD t 0 / ((outdegList n outlinks).getD t 0 : ℚ) else 0)
        = pr.getD t 0 / ((outlinks t).length : ℚ) := by
    intro t ht
    obtain ⟨htn, hmem⟩ := mem_buildIncoming n outlinks a t ha ht
    have hdeg : (outdegList n outlinks).getD t 0 = (outlinks t).length := by
      rw [outdegList]; exact getD_map_range _ 0 htn
    rw [hdeg, if_pos (List.length_pos.mpr (List.ne_nil_of_mem hmem))]
  rw [List.map_congr_left hcongr]

/-- Witness for `c1_iteration_formula` on the concrete graph `{0: [1]}` with
`n = 2`, `pr = [1/2, 1/2]`, `d = 17/20`, `a = 1`. -/
theorem c1_witness :
    1 < 2 ∧
    (newRank 2 (buildIncoming 2 exOutlinks) (outdegList 2 exOutlinks) (17/20)
        [1/2, 1/2]).getD 1 0
      = (1 - 17/20) / (2 : ℚ)
        + (17/20) * ((((buildIncoming 2 exOutlinks).getD 1 []).map
              (fun s => ([(1:ℚ)/2, 1/2].getD s 0) / ((exOutlinks s).length : ℚ))).sum
            + danglingMass 2 (outdegList 2 exOutlinks) [1/2, 1/2] / (2 : ℚ)) :=
  ⟨by decide, c1_iteration_formula 2 exOutlinks (17/20) [1/2, 1/2] 1 (by decide)⟩

lemma incoming_map_sum (n : Nat) (outlinks : Nat → List Nat) (a : Nat) (ha : a < n)
    (f : Nat → ℚ) :
    (((buildIncoming n outlinks).getD a []).map f).sum
      = ∑ src in Finset.range n, ((outlinks src).count a : ℚ) * f src := by
  rw [buildIncoming_getD n outlinks a ha, catLists_eq_join, List.map_flatten,
      List.sum_flatten, List.map_map, List.map_map, listSum_range]
  apply Finset.sum_congr rfl
  intro src _
  simp [Function.comp, List.map_replicate, List.sum_replicate, nsmul_eq_mul]

lemma sum_count_range (l : List Nat) (n : Nat) (h : ∀ x ∈ l, x < n) :
    ∑ a in Finset.range n, (l.count a : ℚ) = (l.length : ℚ) := by
  induction l with
  | nil => simp
  | cons x l ih =>
    have hx : x < n := h x (List.mem_cons_self x l)
    simp only [List.count_cons, List.length_cons]
    push_cast
    rw [Finset.sum_add_distrib, ih (fun y hy => h y (List.mem_cons_of_mem x hy))]
    have hone : (∑ a in Finset.range n, if x = a then (1 : ℚ) else 0) = 1 := by
      rw [Finset.sum_ite_eq (Finset.range n) x (fun _ => (1 : ℚ))]
      simp [Finset.mem_range.mpr hx]
    simp only [beq_iff_eq]
    rw [hone]

lemma sum_getD_range (l : List ℚ) : ∑ i in Finset.range l.length, l.getD i 0 = l.sum := by
  induction l with
  | nil => simp
  | cons x l ih =>
    rw [List.length_cons, Finset.sum_range_succ']
    simp only [List.getD_cons_succ, List.getD_cons_zero, List.sum_cons]
    rw [ih]; ring

lemma filter_map_sum_range (n : Nat) (p : Nat → Bool) (g : Nat → ℚ) :
    (((List.range n).filter p).map g).sum
      = ∑ i in Finset.range n, (if p i then g i else 0) := by
  rw [← listSum_range]
  induction (List.range n) with
  | nil => simp
  | cons x l ih =>
    by_cases hx : p x <;> simp [List.filter_cons, hx, ih]

lemma newRank_length (n : Nat) (inc : List (List Nat)) (outdeg : List Nat) (d : ℚ) (pr : List ℚ) :
    (newRank n inc outdeg d pr).length = n := by
  simp [newRank]

lemma newRank_sum (n : Nat) (hn : 0 < n) (outlinks : Nat → List Nat) (d : ℚ) (pr : List ℚ)
    (hlen : pr.length = n)
    (hwf : ∀ src, src < n → ∀ dst ∈ outlinks src, dst < n) :
    (newRank n (buildIncoming n outlinks) (outdegList n outlinks) d pr).sum
      = (1 - d) + d * pr.sum := by
  have hQ : (n : ℚ) ≠ 0 := Nat.cast_ne_zero.mpr hn.ne'
  simp only [newRank]
  rw [listSum_range]
  have step1 : ∀ a ∈ Finset.range n,
      (1 - d) / (n : ℚ)
        + d * ((((buildIncoming n outlinks).getD a []).map (fun t =>
            if 0 < (outdegList n outlinks).getD t 0 then
              pr.getD t 0 / ((outdegList n outlinks).getD t 0 : ℚ) else 0)).sum
          + danglingMass n (outdegList n outlinks) pr / (n : ℚ))
      = ((1 - d) / (n : ℚ) + d * (danglingMass n (outdegList n outlinks) pr / (n : ℚ)))
        + d * (∑ src in Finset.range n, ((outlinks src).count a : ℚ) *
            (if 0 < (outdegList n outlinks).getD src 0 then
              pr.getD src 0 / ((outdegList n outlinks).getD src 0 : ℚ) else 0)) := by
    intro a ha
    rw [incoming_map_sum n outlinks a (Finset.mem_range.mp ha)]
    ring
  rw [Finset.sum_congr rfl step1]
  rw [Finset.sum_add_distrib, Finset.sum_const, Finset.card_range, ← Finset.mul_sum]
  rw [Finset.sum_comm]
  have hg : ∀ src, src < n → (outdegList n outlinks).getD src 0 = (outlinks src).length := by
    intro src h; rw [outdegList]; exact getD_map_range _ 0 h
  have step2 : ∀ src ∈ Finset.range n,
      (∑ a in Finset.range n, ((outlinks src).count a : ℚ) *
          (if 0 < (outdegList n outlinks).getD src 0 then
            pr.getD src 0 / ((outdegList n outlinks).getD src 0 : ℚ) else 0))
        = (if 0 < (outlinks src).length then pr.getD src 0 else 0) := by
    intro src hs
    rw [← Finset.sum_mul, sum_count_range (outlinks src) n (hwf src (Finset.mem_range.mp hs)),
        hg src (Finset.mem_range.mp hs)]
    by_cases hpos : 0 < (outlinks src).length
    · rw [if_pos hpos, if_pos hpos]
      have : ((outlinks src).length : ℚ) ≠ 0 := Nat.cast_ne_zero.mpr hpos.ne'
      field_simp
    · rw [if_neg hpos, if_neg hpos]
      ring
  rw [Finset.sum_congr rfl step2]
  have hdang : danglingMass n (outdegList n outlinks) pr
      = ∑ i in Finset.range n, (if (outlinks i).length = 0 then pr.getD i 0 else 0) := by
    rw [danglingMass, filter_map_sum_range]
    apply Finset.sum_congr rfl
    intro i hi
    have h1 : (outdegList n outlinks).getD i 0 = (outlinks i).length :=
      hg i (Finset.mem_range.mp hi)
    by_cases hc : (outlinks i).length = 0
    · rw [if_pos (decide_eq_true (by rw [h1]; exact hc)), if_pos hc]
    · rw [if_neg (by simp only [decide_eq_true_eq, h1]; exact hc), if_neg hc]
  rw [hdang]
  have hsplit : (∑ i in Finset.range n, (if (outlinks i).length = 0 then pr.getD i 0 else 0))
      + (∑ i in Finset.range n, (if 0 < (outlinks i).length then pr.getD i 0 else 0))
      = pr.sum := by
    rw [← Finset.sum_add_distrib]
    have : ∀ i ∈ Finset.range n,
        ((if (outlinks i).length = 0 then pr.getD i 0 else 0)
          + (if 0 < (outlinks i).length then pr.getD i 0 else 0)) = pr.getD i 0 := by
      intro i _
      by_cases hz : (outlinks i).length = 0
      · rw [if_pos hz, if_neg (by omega)]; ring
      · rw [if_neg hz, if_pos (by omega)]; ring
    rw [Finset.sum_congr rfl this, ← hlen, sum_getD_range]
  rw [nsmul_eq_mul, ← hsplit]
  field_simp
  ring

lemma prLoopCore_inv (step : List ℚ → List ℚ) (delta : List ℚ → List ℚ → ℚ) (tol : ℚ)
    (maxN : Nat) (P : List ℚ → Prop) (hstep : ∀ pr, P pr → P (step pr)) :
    ∀ (fuel it : Nat) (pr : List ℚ) (ps : ℚ), P pr →
      P (prLoopCore step delta tol maxN fuel it pr ps).1 := by
  intro fuel
  induction fuel with
  | zero => intro it pr ps hp; exact hp
  | succ f ih =>
    intro it pr ps hp
    simp only [prLoopCore]
    split
    · exact hstep pr hp
    · exact ih _ _ _ (hstep pr hp)

lemma pagerank_pos_eq (n : Int) (outlinks : Nat → List Nat) (d tol : ℚ)
    (max_iter : Int) (elapsed : ℚ) (hn : 0 < n) (hm : 0 < max_iter) :
    pagerank_iterative n outlinks d tol max_iter elapsed
      = ((prLoopCore (fun pr => newRank n.toNat (buildIncoming n.toNat outlinks)
            (outdegList n.toNat outlinks) d pr) (deltaL1 n.toNat) tol
            max_iter.toNat max_iter.toNat 1 (List.replicate n.toNat ((1 : ℚ) / (n.toNat : ℚ)))
            (List.replicate n.toNat ((1 : ℚ) / (n.toNat : ℚ))).sum).1,
         ((prLoopCore (fun pr => newRank n.toNat (buildIncoming n.toNat outlinks)
            (outdegList n.toNat outlinks) d pr) (deltaL1 n.toNat) tol
            max_iter.toNat max_iter.toNat 1 (List.replicate n.toNat ((1 : ℚ) / (n.toNat : ℚ)))
            (List.replicate n.toNat ((1 : ℚ) / (n.toNat : ℚ))).sum).2 : Int),
         elapsed) := by
  rw [pagerank_iterative, if_neg (by omega), if_neg (by omega)]

lemma pagerank_maxle_eq (n : Int) (outlinks : Nat → List Nat) (d tol : ℚ)
    (max_iter : Int) (elapsed : ℚ) (hn : 0 < n) (hm : max_iter ≤ 0) :
    pagerank_iterative n outlinks d tol max_iter elapsed
      = (List.replicate n.toNat ((1 : ℚ) / (n.toNat : ℚ)), max_iter, elapsed) := by
  rw [pagerank_iterative, if_neg (by omega), if_pos hm]

lemma initPr_sum (N : Nat) (hN : 0 < N) :
    (List.replicate N ((1 : ℚ) / (N : ℚ))).sum = 1 := by
  rw [List.sum_replicate, nsmul_eq_mul]
  have : (N : ℚ) ≠ 0 := Nat.cast_ne_zero.mpr hN.ne'
  field_simp

/-- C2: for every `N > 0` and every adjacency graph whose destinations lie in
`[0, N)`, the sum of the rank vector returned by `pagerank_iterative` equals
1 exactly in the rational model (each iteration maps total mass `m` to
`(1-d) + d*m` thanks to the dangling-mass redistribution, and the uniform
initialization has mass 1), hence in particular it is within `1e-3` of 1. -/
theorem c2_mass_conservation (n : Int) (outlinks : Nat → List Nat) (d tol : ℚ)
    (max_iter : Int) (elapsed : ℚ) (hn : 0 < n)
    (hwf : ∀ src, src < n.toNat → ∀ dst ∈ outlinks src, dst < n.toNat) :
    (pagerank_iterative n outlinks d tol max_iter elapsed).1.sum = 1 ∧
    |(pagerank_iterative n outlinks d tol max_iter elapsed).1.sum - 1| ≤ 1 / 1000 := by
  have hN : 0 < n.toNat := by omega
  suffices hsum : (pagerank_iterative n outlinks d tol max_iter elapsed).1.sum = 1 by
    exact ⟨hsum, by rw [hsum]; norm_num⟩
  by_cases hm : max_iter ≤ 0
  · rw [pagerank_maxle_eq n outlinks d tol max_iter elapsed hn hm]
    exact initPr_sum n.toNat hN
  · rw [pagerank_pos_eq n outlinks d tol max_iter elapsed hn (by omega)]
    have hinv := prLoopCore_inv
      (fun pr => newRank n.toNat (buildIncoming n.toNat outlinks) (outdegList n.toNat outlinks) d pr)
      (deltaL1 n.toNat) tol max_iter.toNat
      (fun pr => pr.sum = 1 ∧ pr.length = n.toNat)
      (fun pr hp => ⟨by rw [newRank_sum n.toNat hN outlinks d pr hp.2 hwf, hp.1]; ring,
        newRank_length _ _ _ _ _⟩)
      max_iter.toNat 1 (List.replicate n.toNat ((1 : ℚ) / (n.toNat : ℚ)))
      (List.replicate n.toNat ((1 : ℚ) / (n.toNat : ℚ))).sum
      ⟨initPr_sum n.toNat hN, by simp⟩
    exact hinv.1

theorem c2_witness :
    ((0 : Int) < 2 ∧
      (∀ src, src < (2 : Int).toNat → ∀ dst ∈ exOutlinks src, dst < (2 : Int).toNat)) ∧
    ((pagerank_iterative 2 exOutlinks (17/20) (1/200) 50 0).1.sum = 1 ∧
      |(pagerank_iterative 2 exOutlinks (17/20) (1/200) 50 0).1.sum - 1| ≤ 1 / 1000) :=
  ⟨⟨by decide, by
      intro src _ dst hd
      by_cases h0 : src = 0
      · simp [exOutlinks, h0] at hd
        omega
      · simp [exOutlinks, h0] at hd⟩,
    c2_mass_conservation 2 exOutlinks (17/20) (1/200) 50 0 (by decide) (by
      intro src _ dst hd
      by_cases h0 : src = 0
      · simp [exOutlinks, h0] at hd
        omega
      · simp [exOutlinks, h0] at hd)⟩

lemma getD_nonneg (pr : List ℚ) (h : ∀ x ∈ pr, 0 ≤ x) (t : Nat) : 0 ≤ pr.getD t 0 := by
  by_cases ht : t < pr.length
  · rw [List.getD_eq_getElem _ _ ht]
    exact h _ (List.getElem_mem ht)
  · rw [List.getD_eq_default _ _ (le_of_not_lt ht)]

lemma newRank_nonneg (n : Nat) (inc : List (List Nat)) (outdeg : List Nat) (d : ℚ)
    (pr : List ℚ) (hd0 : 0 ≤ d) (hd1 : d < 1) (h : ∀ x ∈ pr, 0 ≤ x) :
    ∀ x ∈ newRank n inc outdeg d pr, 0 ≤ x := by
  intro x hx
  simp only [newRank, List.mem_map] at hx
  obtain ⟨a, _, rfl⟩ := hx
  have hbase : 0 ≤ (1 - d) / (n : ℚ) :=
    div_nonneg (by linarith) (Nat.cast_nonneg n)
  have hdang : 0 ≤ danglingMass n outdeg pr := by
    rw [danglingMass]
    apply List.sum_nonneg
    intro y hy
    simp only [List.mem_map] at hy
    obtain ⟨i, _, rfl⟩ := hy
    exact getD_nonneg pr h i
  have hinner : 0 ≤ (((inc.getD a []).map fun t =>
      if 0 < outdeg.getD t 0 then pr.getD t 0 / (outdeg.getD t 0 : ℚ) else 0)).sum := by
    apply List.sum_nonneg
    intro y hy
    simp only [List.mem_map] at hy
    obtain ⟨t, _, rfl⟩ := hy
    by_cases hc : 0 < outdeg.getD t 0
    · rw [if_pos hc]
      exact div_nonneg (getD_nonneg pr h t) (Nat.cast_nonneg _)
    · rw [if_neg hc]
  exact add_nonneg hbase (mul_nonneg hd0
    (add_nonneg hinner (div_nonneg hdang (Nat.cast_nonneg n))))

/-- C6: for every `N > 0`, every adjacency graph, and every damping factor
`0 <= d < 1`, one iteration (`newRank`) maps a vector with non-negative
entries to a vector with non-negative entries, and every entry of the vector
returned by `pagerank_iterative` (which starts from the non-negative uniform
initialization) is non-negative. -/
theorem c6_nonnegativity (n : Int) (outlinks : Nat → List Nat) (d tol : ℚ)
    (max_iter : Int) (elapsed : ℚ) (hn : 0 < n) (hd0 : 0 ≤ d) (hd1 : d < 1) :
    (∀ pr : List ℚ, (∀ x ∈ pr, 0 ≤ x) →
      ∀ x ∈ newRank n.toNat (buildIncoming n.toNat outlinks)
        (outdegList n.toNat outlinks) d pr, 0 ≤ x) ∧
    (∀ x ∈ (pagerank_iterative n outlinks d tol max_iter elapsed).1, 0 ≤ x) := by
  have hinit : ∀ x ∈ List.replicate n.toNat ((1 : ℚ) / (n.toNat : ℚ)), 0 ≤ x := by
    intro x hx
    rw [List.eq_of_mem_replicate hx]
    exact div_nonneg zero_le_one (Nat.cast_nonneg _)
  constructor
  · intro pr hp
    exact newRank_nonneg n.toNat _ _ d pr hd0 hd1 hp
  · by_cases hm : max_iter ≤ 0
    · rw [pagerank_maxle_eq n outlinks d tol max_iter elapsed hn hm]
      exact hinit
    · rw [pagerank_pos_eq n outlinks d tol max_iter elapsed hn (by omega)]
      exact prLoopCore_inv
        (fun pr => newRank n.toNat (buildIncoming n.toNat outlinks)
          (outdegList n.toNat outlinks) d pr)
        (deltaL1 n.toNat) tol max_iter.toNat
        (fun pr => ∀ x ∈ pr, 0 ≤ x)
        (fun pr hp => newRank_nonneg n.toNat _ _ d pr hd0 hd1 hp)
        max_iter.toNat 1 (List.replicate n.toNat ((1 : ℚ) / (n.toNat : ℚ)))
        (List.replicate n.toNat ((1 : ℚ) / (n.toNat : ℚ))).sum hinit

theorem c6_witness :
    ((0 : Int) < 2 ∧ (0 : ℚ) ≤ 17/20 ∧ (17/20 : ℚ) < 1) ∧
    ((∀ pr : List ℚ, (∀ x ∈ pr, 0 ≤ x) →
      ∀ x ∈ newRank (2 : Int).toNat (buildIncoming (2 : Int).toNat exOutlinks)
        (outdegList (2 : Int).toNat exOutlinks) (17/20) pr, 0 ≤ x) ∧
    (∀ x ∈ (pagerank_iterative 2 exOutlinks (17/20) (1/200) 50 0).1, 0 ≤ x)) :=
  ⟨⟨by decide, by norm_num, by norm_num⟩,
    c6_nonnegativity 2 exOutlinks (17/20) (1/200) 50 0 (by decide) (by norm_num) (by norm_num)⟩

/-- C9: if `N == 0`, `pagerank_iterative` returns the empty rank vector, zero
iterations, and zero elapsed time as a normal no-op result (the `n <= 0`
early return of line 110), regardless of the adjacency input and the other
parameters. -/
theorem c9_zero_pages (outlinks : Nat → List Nat) (d tol : ℚ) (max_iter : Int)
    (elapsed : ℚ) :
    pagerank_iterative 0 outlinks d tol max_iter elapsed = ([], 0, 0) := by
  rw [pagerank_iterative, if_pos le_rfl]

/-- C4 counterexample: the claim states that `pagerank_iterative` fails with a
fatal configuration error exactly when `N < 0`, `d` is outside `[0,1)`, or
`maxIter <= 0`.  The source performs no validation at all: `n = -1` (negative
page count) takes the `n <= 0` early return and yields the normal no-op
result; `d = 2` (outside `[0,1)`) runs and returns a normal converged result;
`max_iter = 0` returns the initial uniform vector as a normal result.  No
error is ever reported. -/
theorem c4_counterexample :
    pagerank_iterative (-1) exOutlinks (17/20) (1/200) 200 0 = ([], 0, 0) ∧
    pagerank_iterative 1 (fun _ => []) 2 (1/200) 1 0 = ([1], 1, 0) ∧
    pagerank_iterative 2 exOutlinks (17/20) (1/200) 0 (5/2) = ([1/2, 1/2], 0, 5/2) := by
  refine ⟨by decide, ?_, ?_⟩
  · rw [pagerank_pos_eq 1 (fun _ => []) 2 (1/200) 1 0 (by decide) (by decide)]
    have hb : buildIncoming 1 (fun _ => ([] : List Nat)) = [[]] := by decide
    have ho : outdegList 1 (fun _ => ([] : List Nat)) = [0] := by decide
    norm_num [prLoopCore, newRank, hb, ho, danglingMass, deltaL1, adjDenom,
      List.range_succ, List.range_zero]
  · rw [pagerank_maxle_eq 2 exOutlinks (17/20) (1/200) 0 (5/2) (by decide) (by decide)]
    norm_num [List.replicate]
    rw [show Int.toNat 2 = 2 from rfl]
    norm_num

/-- C4 amended: `pagerank_iterative` performs no configuration validation and
cannot fail on any input: every `n <= 0` (including negative page counts)
returns the empty no-op result `([], 0, 0.0)` as a normal value, every
damping factor and tolerance is accepted, and `maxIter <= 0` returns the
initial uniform vector with iteration count `maxIter` as a normal value; the
function performs no I/O. -/
theorem c4_amended_no_validation (n : Int) (outlinks : Nat → List Nat) (d tol : ℚ)
    (max_iter : Int) (elapsed : ℚ) :
    (n ≤ 0 → pagerank_iterative n outlinks d tol max_iter elapsed = ([], 0, 0)) ∧
    (0 < n → max_iter ≤ 0 →
      pagerank_iterative n outlinks d tol max_iter elapsed
        = (List.replicate n.toNat ((1 : ℚ) / (n.toNat : ℚ)), max_iter, elapsed)) := by
  constructor
  · intro h
    rw [pagerank_iterative, if_pos h]
  · intro h1 h2
    exact pagerank_maxle_eq n outlinks d tol max_iter elapsed h1 h2

/-- Witness for `c4_amended_no_validation` at `n = -3` and at
`(n, maxIter) = (2, 0)`. -/
theorem c4_amended_witness :
    ((-3 : Int) ≤ 0 ∧ (0 : Int) < 2 ∧ (0 : Int) ≤ 0) ∧
    pagerank_iterative (-3) exOutlinks (3/2) (1/200) (-7) 0 = ([], 0, 0) ∧
    pagerank_iterative 2 exOutlinks (17/20) (1/200) 0 (5/2)
      = (List.replicate (2 : Int).toNat ((1 : ℚ) / (((2 : Int).toNat : ℚ))), 0, 5/2) :=
  ⟨⟨by decide, by decide, by decide⟩,
    (c4_amended_no_validation (-3) exOutlinks (3/2) (1/200) (-7) 0).1 (by decide),
    (c4_amended_no_validation 2 exOutlinks (17/20) (1/200) 0 (5/2)).2 (by decide) (by decide)⟩

lemma prLoopCore_char (step : List ℚ → List ℚ) (delta : List ℚ → List ℚ → ℚ) (tol : ℚ)
    (maxN : Nat) (pr0 : List ℚ) (hmax : 1 ≤ maxN) :
    ∀ (fuel it : Nat), 1 ≤ it → it + fuel = maxN + 1 →
      (∀ j, 1 ≤ j → j < it → ¬ convAt step delta tol pr0 j) →
      ∃ k : Nat,
        prLoopCore step delta tol maxN fuel it (iterVec step pr0 (it - 1))
            ((iterVec step pr0 (it - 1)).sum) = (iterVec step pr0 k, k) ∧
        1 ≤ k ∧ k ≤ maxN ∧
        (∀ j, 1 ≤ j → j < k → ¬ convAt step delta tol pr0 j) ∧
        (convAt step delta tol pr0 k ∨ k = maxN) := by
  intro fuel
  induction fuel with
  | zero =>
    intro it h1 h2 hist
    refine ⟨maxN, ?_, hmax, le_refl _, ?_, Or.inr rfl⟩
    · simp only [prLoopCore]
      rw [show it - 1 = maxN from by omega]
    · intro j hj1 hj2
      exact hist j hj1 (by omega)
  | succ f ih =>
    intro it h1 h2 hist
    simp only [prLoopCore]
    have hnp2 : step (iterVec step pr0 (it - 1)) = iterVec step pr0 it := by
      conv_rhs => rw [show it = (it - 1) + 1 from by omega]
      rw [iterVec, iterVec, Function.iterate_succ_apply']
    by_cases hc : delta (step (iterVec step pr0 (it - 1))) (iterVec step pr0 (it - 1)) /
        adjDenom ((iterVec step pr0 (it - 1)).sum) ≤ tol
    · rw [if_pos hc]
      refine ⟨it, ?_, h1, by omega, hist, Or.inl ?_⟩
      · rw [hnp2]
      · rw [convAt, ← hnp2]
        exact hc
    · rw [if_neg hc]
      have hist2 : ∀ j, 1 ≤ j → j < it + 1 → ¬ convAt step delta tol pr0 j := by
        intro j hj1 hj2
        by_cases hj : j < it
        · exact hist j hj1 hj
        · have hji : j = it := by omega
          subst hji
          intro hcc
          rw [convAt, ← hnp2] at hcc
          exact hc hcc
      have hrec := ih (it + 1) (by omega) (by omega) hist2
      rw [show it + 1 - 1 = it from by omega] at hrec
      rw [hnp2]
      exact hrec

/-- C3: for every `N > 0` and `maxIter >= 1`, `pagerank_iterative` returns a
vector `v` and a 1-based iteration count `k` with `1 <= k <= maxIter` such
that `v` is exactly the `k`-th Jacobi iterate; the convergence test
`delta/denom <= tol` — with `delta` the L1 change of iteration `j` and
`denom = previousTotalMass if previousTotalMass != 0 else 1.0`, where
`previousTotalMass` is the sum of the vector before the iteration — fails
for every iteration before `k`, and either it holds at `k` (the loop stopped
at the first passing test) or `k = maxIter` (the budget was exhausted and the
last computed vector is returned as a normal, non-error result). -/
theorem c3_convergence_semantics (n : Int) (outlinks : Nat → List Nat) (d tol : ℚ)
    (max_iter : Int) (elapsed : ℚ) (hn : 0 < n) (hm : 1 ≤ max_iter) :
    ∃ k : Nat,
      (pagerank_iterative n outlinks d tol max_iter elapsed).2.1 = (k : Int) ∧
      1 ≤ k ∧ (k : Int) ≤ max_iter ∧
      (pagerank_iterative n outlinks d tol max_iter elapsed).1
        = iterVec (fun pr => newRank n.toNat (buildIncoming n.toNat outlinks)
            (outdegList n.toNat outlinks) d pr)
            (List.replicate n.toNat ((1 : ℚ) / (n.toNat : ℚ))) k ∧
      (∀ j, 1 ≤ j → j < k →
        ¬ convAt (fun pr => newRank n.toNat (buildIncoming n.toNat outlinks)
            (outdegList n.toNat outlinks) d pr) (deltaL1 n.toNat) tol
            (List.replicate n.toNat ((1 : ℚ) / (n.toNat : ℚ))) j) ∧
      (convAt (fun pr => newRank n.toNat (buildIncoming n.toNat outlinks)
            (outdegList n.toNat outlinks) d pr) (deltaL1 n.toNat) tol
            (List.replicate n.toNat ((1 : ℚ) / (n.toNat : ℚ))) k
        ∨ (k : Int) = max_iter) := by
  rw [pagerank_pos_eq n outlinks d tol max_iter elapsed hn (by omega)]
  have hmaxN : (max_iter.toNat : Int) = max_iter := Int.toNat_of_nonneg (by omega)
  obtain ⟨k, heq, h1, h2, h3, h4⟩ := prLoopCore_char
    (fun pr => newRank n.toNat (buildIncoming n.toNat outlinks)
      (outdegList n.toNat outlinks) d pr)
    (deltaL1 n.toNat) tol max_iter.toNat
    (List.replicate n.toNat ((1 : ℚ) / (n.toNat : ℚ)))
    (by omega) max_iter.toNat 1 (by omega) (by omega)
    (by intro j hj1 hj2; omega)
  rw [show (1 : Nat) - 1 = 0 from rfl] at heq
  rw [show iterVec (fun pr => newRank n.toNat (buildIncoming n.toNat outlinks)
      (outdegList n.toNat outlinks) d pr)
      (List.replicate n.toNat ((1 : ℚ) / (n.toNat : ℚ))) 0
    = List.replicate n.toNat ((1 : ℚ) / (n.toNat : ℚ)) from rfl] at heq
  refine ⟨k, ?_, h1, by omega, ?_, h3, ?_⟩
  · rw [heq]
  · rw [heq]
  · rcases h4 with h | h
    · exact Or.inl h
    · exact Or.inr (by omega)

/-- Witness for `c3_convergence_semantics` at `n = 1`, the empty adjacency
map, `d = 1/2`, `tol = 1/200`, `maxIter = 3`. -/
theorem c3_witness :
    ((0 : Int) < 1 ∧ (1 : Int) ≤ 3) ∧
    (∃ k : Nat,
      (pagerank_iterative 1 (fun _ => []) (1/2) (1/200) 3 0).2.1 = (k : Int) ∧
      1 ≤ k ∧ (k : Int) ≤ 3 ∧
      (pagerank_iterative 1 (fun _ => []) (1/2) (1/200) 3 0).1
        = iterVec (fun pr => newRank (1 : Int).toNat (buildIncoming (1 : Int).toNat (fun _ => []))
            (outdegList (1 : Int).toNat (fun _ => [])) (1/2) pr)
            (List.replicate (1 : Int).toNat ((1 : ℚ) / (((1 : Int).toNat : ℚ)))) k ∧
      (∀ j, 1 ≤ j → j < k →
        ¬ convAt (fun pr => newRank (1 : Int).toNat (buildIncoming (1 : Int).toNat (fun _ => []))
            (outdegList (1 : Int).toNat (fun _ => [])) (1/2) pr) (deltaL1 (1 : Int).toNat) (1/200)
            (List.replicate (1 : Int).toNat ((1 : ℚ) / (((1 : Int).toNat : ℚ)))) j) ∧
      (convAt (fun pr => newRank (1 : Int).toNat (buildIncoming (1 : Int).toNat (fun _ => []))
            (outdegList (1 : Int).toNat (fun _ => [])) (1/2) pr) (deltaL1 (1 : Int).toNat) (1/200)
            (List.replicate (1 : Int).toNat ((1 : ℚ) / (((1 : Int).toNat : ℚ)))) k
        ∨ (k : Int) = 3)) :=
  ⟨⟨by decide, by decide⟩,
    c3_convergence_semantics 1 (fun _ => []) (1/2) (1/200) 3 0 (by decide) (by decide)⟩

lemma outlinksAt_none (fetch : Nat → Option (List Char)) (n k : Nat) (h : fetch k = none) :
    outlinksAt fetch n k = [] := by
  rw [outlinksAt]
  by_cases hk : k < n
  · rw [if_pos hk, h]
    rfl
  · rw [if_neg hk]

lemma bumpCounts_apply : ∀ (outs : List Nat) (m : Nat → Nat) (dst : Nat),
    bumpCounts m outs dst = m dst + outs.count dst := by
  intro outs
  induction outs with
  | nil => intro m dst; simp [bumpCounts]
  | cons x outs ih =>
    intro m dst
    rw [bumpCounts, List.foldl_cons, ← bumpCounts, ih]
    by_cases hx : dst = x
    · subst hx
      simp [List.count_cons]
      omega
    · simp [List.count_cons, hx, Ne.symm hx]

lemma foldl_bumpCounts (f : Nat → List Nat) : ∀ (L : List Nat) (m : Nat → Nat) (dst : Nat),
    (L.foldl (fun m i => bumpCounts m (f i)) m) dst
      = m dst + (catLists (L.map f)).count dst := by
  intro L
  induction L with
  | nil => intro m dst; simp [catLists]
  | cons i L ih =>
    intro m dst
    rw [List.foldl_cons, ih, bumpCounts_apply]
    simp [catLists, List.count_append]
    omega

lemma indegAt_apply (fetch : Nat → Option (List Char)) (n dst : Nat) :
    indegAt fetch n dst
      = (catLists ((List.range n).map (outlinksAt fetch n))).count dst := by
  rw [indegAt, foldl_bumpCounts]
  omega

/-- C8: if the fetch of page `k` fails (modelled by `fetch k = none`, standing
for the caught `download_as_text` exception), the build records
`OutLinks(k) = []` and does not raise, and the derived in-degree map counts
exactly the link occurrences of the pages other than `k` — no occurrence
originating from page `k` is counted. -/
theorem c8_fetch_failure (fetch : Nat → Option (List Char)) (n k : Nat)
    (h : fetch k = none) :
    outlinksAt fetch n k = [] ∧
    ∀ dst, indegAt fetch n dst
      = (catLists (((List.range n).filter (fun i => i ≠ k)).map
          (outlinksAt fetch n))).count dst := by
  have hout : outlinksAt fetch n k = [] := outlinksAt_none fetch n k h
  refine ⟨hout, ?_⟩
  intro dst
  rw [indegAt_apply]
  have key : ∀ L : List Nat, (catLists (L.map (outlinksAt fetch n))).count dst
      = (catLists ((L.filter (fun i => i ≠ k)).map (outlinksAt fetch n))).count dst := by
    intro L
    induction L with
    | nil => rfl
    | cons i L ih =>
      by_cases hik : i = k
      · subst hik
        simp [catLists, List.filter_cons, hout, ih, List.count_append]
      · simp [catLists, List.filter_cons, hik, List.count_append, ih]
  exact key (List.range n)

/-- A fetch oracle for the witnesses: page 0 fails, the others return a
link-free page. -/
def exFetch : Nat → Option (List Char) := fun i => if i = 0 then none else some ['x']

/-- Witness for `c8_fetch_failure` with two pages, page 0 failing. -/
theorem c8_witness :
    exFetch 0 = none ∧
    (outlinksAt exFetch 2 0 = [] ∧
      ∀ dst, indegAt exFetch 2 dst
        = (catLists (((List.range 2).filter (fun i => i ≠ 0)).map
            (outlinksAt exFetch 2))).count dst) :=
  ⟨by decide, c8_fetch_failure exFetch 2 0 (by decide)⟩
